import Mathlib

/-!
Verification development for the bookmark-miner analysis pipeline
(src/bookmark_miner.py).

Python strings are modelled as lists of characters (`Str`).  The model covers
the ASCII fragment of the Python text predicates (`str.lower`, `str.strip`,
the `re` classes `\w` and `\s`), which is the fragment the program and the
claims exercise.  Python floats are modelled as exact rationals; on every
value reached by the scoring function the double-precision results coincide
with the decimal values used here.
-/

set_option maxRecDepth 20000

namespace BookmarkMiner

/-- Python strings, modelled as lists of characters. -/
abbrev Str := List Char

/-- Coerce a Lean string literal to the `Str` model. -/
def sl (s : String) : Str := s.data

/-- ASCII whitespace, as matched by the Python regex class `\s` and stripped
by `str.strip`. -/
def isPySpace (c : Char) : Bool :=
  c == ' ' || c == '\t' || c == '\n' || c == '\r' || c == '\x0b' || c == '\x0c'

/-- ASCII word characters, as matched by the Python regex class `\w`. -/
def isWordChar (c : Char) : Bool := c.isAlpha || c.isDigit || c == '_'

/-- The two separator characters of the `_clean_name` regex class `[-|]`. -/
def isSepChar (c : Char) : Bool := c == '-' || c == '|'

/-- The regex class `[\w\s]` used after the separator in `_clean_name`. -/
def wordOrSpace (c : Char) : Bool := isWordChar c || isPySpace c

/-- ASCII model of `str.lower` on a single character. -/
def asciiLower (c : Char) : Char :=
  if 'A' ≤ c ∧ c ≤ 'Z' then Char.ofNat (c.toNat + 32) else c

/-- ASCII model of `str.lower`. -/
def lowerStr (s : Str) : Str := s.map asciiLower

/-- `startsWithCL n h` holds when `n` is an initial segment of `h`. -/
def startsWithCL : Str → Str → Bool
  | [], _ => true
  | _ :: _, [] => false
  | a :: as, b :: bs => a == b && startsWithCL as bs

/-- Model of the Python substring test `needle in haystack`. -/
def containsSub (needle : Str) : Str → Bool
  | [] => startsWithCL needle []
  | c :: t => startsWithCL needle (c :: t) || containsSub needle t

/-- Model of `str.strip()`: drop leading and trailing whitespace. -/
def pyStrip (s : Str) : Str :=
  ((s.dropWhile isPySpace).reverse.dropWhile isPySpace).reverse

/-- Drop the trailing run of whitespace characters. -/
def dropTrailingWs : Str → Str
  | [] => []
  | c :: cs =>
      let r := dropTrailingWs cs
      if r = [] ∧ isPySpace c then [] else c :: r

/-- `tailMatch s` holds when the regex `\s*[-|]\s*[\w\s]+` of
`Bookmark._clean_name` consumes the whole of `s`.  (Because `\s ⊆ [\w\s]`,
the part after the separator matches exactly when it is a nonempty string of
word-or-space characters.) -/
def tailMatch : Str → Bool
  | [] => false
  | c :: cs =>
      if isPySpace c then tailMatch cs
      else if isSepChar c then decide (cs ≠ []) && cs.all wordOrSpace
      else false

/-- Model of `re.sub(r'\s*[-|]\s*[\w\s]+$', '', name)`: the substitution
removes the leftmost (hence longest) suffix matching the pattern; scanning
resumes at the end of the string, so at most one removal happens. -/
def stripRegex : Str → Str
  | [] => []
  | c :: cs => if tailMatch (c :: cs) then [] else c :: stripRegex cs

/-- Model of `Bookmark._clean_name`:
`cleaned = re.sub(...); return cleaned.strip() or self.name`. -/
def cleanName (name : Str) : Str :=
  let cleaned := pyStrip (stripRegex name)
  if cleaned = [] then name else cleaned

/-- Split a string at its last separator character: returns the part before
the separator and the part after it, together with the separator. -/
def findLastSep : Str → Option (Str × Char × Str)
  | [] => none
  | c :: cs =>
      match findLastSep cs with
      | some (p, d, q) => some (c :: p, d, q)
      | none => if isSepChar c then some ([], c, cs) else none

/-- Spec-side reading of claim C5: strip the suffix that starts at the LAST
occurrence of `-` or `|` (with the optional whitespace run before it), when
that separator is followed by one or more trailing word-or-space characters
reaching the end of the string; otherwise strip nothing. -/
def specStripLast (s : Str) : Option Str :=
  match findLastSep s with
  | some (p, _, q) =>
      if q ≠ [] ∧ q.all wordOrSpace then some (dropTrailingWs p) else none
  | none => none

/-- Spec-side reading of claim C5 as amended: the result of the single
trailing-suffix strip, trimmed; when that is empty or whitespace-only, the
original name is returned unchanged. -/
def specClean (s : Str) : Str :=
  let kept := (specStripLast s).getD s
  let t := pyStrip kept
  if t = [] then s else t

/-! ### URL host extraction

Model of `urllib.parse.urlparse(url).netloc` for ASCII URLs, following the
CPython `urlsplit` algorithm: strip C0-control/space characters from both
ends, remove every tab/CR/LF, split off a well-formed `scheme:`, and when the
remainder starts with `//` take the characters up to the next `/`, `?` or
`#`.  (The CPython bracket-mismatch `ValueError` is not reached by any input
considered here and is not modelled.) -/

/-- C0 control characters and space, stripped from URL ends by `urlsplit`. -/
def isC0OrSpace (c : Char) : Bool := c.toNat ≤ 32

/-- `urlsplit` removes every tab, carriage return and line feed. -/
def removeUnsafeChars (s : Str) : Str :=
  s.filter (fun c => !(c == '\t' || c == '\r' || c == '\n'))

/-- Characters allowed in a URL scheme after the leading letter. -/
def isSchemeChar (c : Char) : Bool :=
  c.isAlpha || c.isDigit || c == '+' || c == '-' || c == '.'

/-- Drop a leading `scheme:` when the part before the first colon is a
nonempty run of scheme characters starting with a letter. -/
def splitSchemeRest (u : Str) : Str :=
  let pre := u.takeWhile (fun c => !(c == ':'))
  if pre.length < u.length &&
      (match pre with
       | c :: _ => c.isAlpha
       | [] => false) &&
      pre.all isSchemeChar
  then u.drop (pre.length + 1)
  else u

/-- The network-location part: after `//`, up to the next `/`, `?` or `#`. -/
def netlocOfRest : Str → Str
  | '/' :: '/' :: r => r.takeWhile (fun c => !(c == '/' || c == '?' || c == '#'))
  | _ => []

/-- Model of `urlparse(url).netloc`. -/
def netloc (url : Str) : Str :=
  netlocOfRest (splitSchemeRest (removeUnsafeChars
    (((url.dropWhile isC0OrSpace).reverse.dropWhile isC0OrSpace).reverse)))

/-! ### Bookmark records -/

/-- The `Bookmark` dataclass.  The derived fields `domain` and `clean_name`
are computed once at construction (`__post_init__`); every bookmark the
program builds goes through `mkBookmark`. -/
structure Bookmark where
  name : Str
  url : Str
  date_added : Option Str
  folder_path : Str
  domain : Str
  clean_name : Str
deriving DecidableEq

/-- Construct a `Bookmark` the way `Bookmark.__post_init__` does:
`domain = urlparse(url).netloc` and `clean_name = _clean_name()`. -/
def mkBookmark (name url : Str) (date_added : Option Str) (folder_path : Str) :
    Bookmark :=
  { name := name
    url := url
    date_added := date_added
    folder_path := folder_path
    domain := netloc url
    clean_name := cleanName name }

/-! ### Parsing the Chrome bookmarks tree (`BookmarkParser.parse_chrome`)

The traversal works on the JSON value produced by `json.load`.  Nodes are
modelled by `BNode`: a mapping whose `type` is `"url"` or `"folder"` (fields,
when present, are strings, as in a Chrome export), a mapping with any other
or missing `type` tag (`otherNode`, skipped, its children never visited), or
a non-mapping JSON value (`badNode`), on which `node.get` raises
`AttributeError`.  Exceptions are modelled by `Except`: a raised exception
aborts the whole extraction. -/

/-- The Python exceptions that the modelled code can raise. -/
inductive PyErr where
  | attributeError
deriving DecidableEq

/-- A node of the bookmark tree, as traversed by `parse_chrome.traverse`. -/
inductive BNode where
  | urlNode (name url date_added : Option Str)
  | folderNode (name : Option Str) (children : List BNode)
  | otherNode (children : List BNode)
  | badNode

mutual

/-- Model of the inner `traverse(node, path)` of `parse_chrome`. -/
def traverse : BNode → Str → Except PyErr (List Bookmark)
  | .urlNode n u d, path =>
      .ok [mkBookmark (n.getD (sl "Untitled")) (u.getD []) d path]
  | .folderNode n cs, path =>
      let folderName := n.getD (sl "Unnamed")
      let newPath := if path = [] then folderName else path ++ '/' :: folderName
      traverseList cs newPath
  | .otherNode _, _ => .ok []
  | .badNode, _ => .error .attributeError

/-- `for child in node.get('children', []): traverse(child, new_path)`. -/
def traverseList : List BNode → Str → Except PyErr (List Bookmark)
  | [], _ => .ok []
  | c :: cs, path =>
      match traverse c path with
      | .error e => .error e
      | .ok bs =>
          match traverseList cs path with
          | .error e => .error e
          | .ok bs2 => .ok (bs ++ bs2)

end

/-- The value found at the key `roots` of the top-level mapping: either a
mapping from root names to nodes, or a non-mapping JSON value (on which
`roots.items()` raises `AttributeError`).  Keys of a parsed JSON object are
unique, and iteration follows insertion order. -/
inductive RootsVal where
  | mapping (roots : List (Str × BNode))
  | nonMapping

/-- The top-level value produced by `json.load`: either a mapping, or one of
the non-mapping JSON shapes (array, string, number, boolean, null), on any
of which `data.get` raises `AttributeError` regardless of content. -/
inductive TopVal where
  | mapping (entries : List (Str × RootsVal))
  | nonMapping

/-- Association-list lookup modelling `dict.get` (keys are unique). -/
def lookupKey {α : Type} : List (Str × α) → Str → Option α
  | [], _ => none
  | (k, v) :: rest, key => if k = key then some v else lookupKey rest key

/-- Whether the top-level JSON value is a mapping. -/
def isMapping : TopVal → Bool
  | .mapping _ => true
  | .nonMapping => false

/-- The allow-list of traversed root identifiers. -/
def allowedRoots : List Str := [sl "bookmark_bar", sl "other", sl "synced"]

/-- The loop over `roots.items()`: traverse allow-listed roots in order. -/
def parseRoots : List (Str × BNode) → Except PyErr (List Bookmark)
  | [] => .ok []
  | (rootName, rootNode) :: rest =>
      if allowedRoots.contains rootName then
        match traverse rootNode rootName with
        | .error e => .error e
        | .ok bs =>
            match parseRoots rest with
            | .error e => .error e
            | .ok bs2 => .ok (bs ++ bs2)
      else parseRoots rest

/-- Model of `BookmarkParser.parse_chrome` on the parsed JSON value. -/
def parse_chrome (data : TopVal) : Except PyErr (List Bookmark) :=
  match data with
  | .mapping entries =>
      match (lookupKey entries (sl "roots")).getD (RootsVal.mapping []) with
      | .mapping roots => parseRoots roots
      | .nonMapping => .error .attributeError
  | .nonMapping => .error .attributeError

/-! ### Validity and spec-side leaf enumeration (claims C6, C8) -/

mutual

/-- A node is valid when no non-mapping value occurs at a traversed
position.  Children of an unrecognized node are never visited, so they are
unconstrained. -/
def validNode : BNode → Bool
  | .urlNode .. => true
  | .folderNode _ cs => validList cs
  | .otherNode _ => true
  | .badNode => false

/-- All nodes of a list are valid. -/
def validList : List BNode → Bool
  | [] => true
  | c :: cs => validNode c && validList cs

end

/-- The raw `(name, url, date_added)` fields of one leaf node. -/
abbrev LeafInfo := Option Str × Option Str × Option Str

mutual

/-- Spec-side: the number of leaf (url-kind) nodes of a tree; folders and
unrecognized nodes contribute none. -/
def leafCount : BNode → Nat
  | .urlNode .. => 1
  | .folderNode _ cs => leafCountList cs
  | .otherNode _ => 0
  | .badNode => 0

/-- Spec-side: total leaf count of a list of trees. -/
def leafCountList : List BNode → Nat
  | [] => 0
  | c :: cs => leafCount c + leafCountList cs

end

mutual

/-- Spec-side: the leaves of a tree in pre-order. -/
def leafSeq : BNode → List LeafInfo
  | .urlNode n u d => [(n, u, d)]
  | .folderNode _ cs => leafSeqList cs
  | .otherNode _ => []
  | .badNode => []

/-- Spec-side: pre-order leaves of a list of trees. -/
def leafSeqList : List BNode → List LeafInfo
  | [] => []
  | c :: cs => leafSeq c ++ leafSeqList cs

end

/-- Every allow-listed root node is valid (non-allow-listed roots are never
touched and need not be). -/
def rootsValid : List (Str × BNode) → Bool
  | [] => true
  | (rootName, rootNode) :: rest =>
      (if allowedRoots.contains rootName then validNode rootNode else true) &&
        rootsValid rest

/-- The top-level value is a mapping whose `roots` value is a mapping with
valid allow-listed roots. -/
def topValid : TopVal → Bool
  | .mapping entries =>
      match (lookupKey entries (sl "roots")).getD (RootsVal.mapping []) with
      | .mapping roots => rootsValid roots
      | .nonMapping => false
  | .nonMapping => false

/-- Spec-side: leaf count over the allow-listed roots, in order. -/
def rootsLeafCount : List (Str × BNode) → Nat
  | [] => 0
  | (rootName, rootNode) :: rest =>
      (if allowedRoots.contains rootName then leafCount rootNode else 0) +
        rootsLeafCount rest

/-- Spec-side: pre-order leaves over the allow-listed roots, in order. -/
def rootsLeafSeq : List (Str × BNode) → List LeafInfo
  | [] => []
  | (rootName, rootNode) :: rest =>
      (if allowedRoots.contains rootName then leafSeq rootNode else []) ++
        rootsLeafSeq rest

/-- Spec-side: leaf count of the whole top-level value. -/
def specLeafCountTop : TopVal → Nat
  | .mapping entries =>
      match (lookupKey entries (sl "roots")).getD (RootsVal.mapping []) with
      | .mapping roots => rootsLeafCount roots
      | .nonMapping => 0
  | .nonMapping => 0

/-- Spec-side: pre-order leaves of the whole top-level value. -/
def specLeafSeqTop : TopVal → List LeafInfo
  | .mapping entries =>
      match (lookupKey entries (sl "roots")).getD (RootsVal.mapping []) with
      | .mapping roots => rootsLeafSeq roots
      | .nonMapping => []
  | .nonMapping => []

/-! ### Categorizer (`ProjectAnalyzer.categorize`) -/

/-- The fixed category table `ProjectAnalyzer.CATEGORIES`, in definition
order (Python dicts preserve insertion order). -/
def catTable : List (Str × List Str) :=
  [ (sl "tools",
      [sl "tool", sl "editor", sl "IDE", sl "cli", sl "terminal",
       sl "utility", sl "app", sl "software"]),
    (sl "saas",
      [sl "dashboard", sl "platform", sl "service", sl "api", sl "cloud",
       sl "app", sl "automation"]),
    (sl "games",
      [sl "game", sl "unity", sl "unreal", sl "godot", sl "phaser",
       sl "pygame", sl "engine"]),
    (sl "hardware",
      [sl "arduino", sl "raspberry", sl "pi", sl "iot", sl "sensor",
       sl "esp32", sl "microcontroller"]),
    (sl "web",
      [sl "html", sl "css", sl "javascript", sl "react", sl "vue",
       sl "svelte", sl "frontend", sl "backend"]),
    (sl "ai_ml",
      [sl "ai", sl "ml", sl "machine learning", sl "neural", sl "gpt",
       sl "llm", sl "model", sl "tensorflow"]),
    (sl "data",
      [sl "database", sl "sql", sl "nosql", sl "analytics",
       sl "visualization", sl "dashboard"]),
    (sl "creative",
      [sl "design", sl "art", sl "music", sl "video", sl "generator",
       sl "creator"]),
    (sl "dev_ops",
      [sl "docker", sl "kubernetes", sl "ci/cd", sl "deploy",
       sl "infrastructure", sl "monitoring"]),
    (sl "mobile",
      [sl "ios", sl "android", sl "mobile", sl "app", sl "flutter",
       sl "react native"]) ]

/-- `text = f"{bookmark.name} {bookmark.url} {bookmark.domain}".lower()`. -/
def searchText (bm : Bookmark) : Str :=
  lowerStr (bm.name ++ ' ' :: (bm.url ++ ' ' :: bm.domain))

/-- `score = sum(1 for kw in keywords if kw.lower() in text)`: each keyword
is counted at most once. -/
def kwScore (keywords : List Str) (text : Str) : Nat :=
  (keywords.filter (fun kw => containsSub (lowerStr kw) text)).length

/-- All categories with their keyword-match counts, in table order. -/
def scoredCats (bm : Bookmark) : List (Str × Nat) :=
  catTable.map (fun e => (e.1, kwScore e.2 (searchText bm)))

/-- One step of Python `max` with a key: keep the current item unless the
next one is strictly greater, so the FIRST maximal item wins. -/
def pickStep (acc y : Str × Nat) : Str × Nat := if acc.2 < y.2 then y else acc

/-- Python `max(items, key=lambda x: x[1])` on a nonempty list. -/
def pickMax (x : Str × Nat) (xs : List (Str × Nat)) : Str × Nat :=
  xs.foldl pickStep x

/-- Model of `ProjectAnalyzer.categorize`: build the positive-score dict in
table order; if empty return `other`, else the first item with the maximal
score. -/
def categorize (bm : Bookmark) : Str :=
  match (scoredCats bm).filter (fun e => decide (0 < e.2)) with
  | [] => sl "other"
  | x :: xs => (pickMax x xs).1

/-- The largest keyword-match count over a score list. -/
def maxVal (l : List (Str × Nat)) : Nat :=
  l.foldr (fun e m => if e.2 ≤ m then m else e.2) 0

/-- The first entry of a score list carrying the given count. -/
def firstWithKey : List (Str × Nat) → Nat → Option (Str × Nat)
  | [], _ => none
  | e :: es, m => if e.2 = m then some e else firstWithKey es m

/-- Spec-side reading of claim C4: the winner is the category with the
strictly highest positive count, ties resolved in favour of the category
appearing first in the fixed table, and `other` when no count is positive. -/
def specCategorize (bm : Bookmark) : Str :=
  let scored := scoredCats bm
  let m := maxVal scored
  if m = 0 then sl "other"
  else
    match firstWithKey scored m with
    | some e => e.1
    | none => sl "other"

/-! ### Buildability scorer (`ProjectAnalyzer.calculate_buildability`) -/

/-- `EASY_INDICATORS`. -/
def EASY_INDICATORS : List Str :=
  [sl "cli", sl "script", sl "bot", sl "scraper", sl "parser",
   sl "converter", sl "simple", sl "basic"]

/-- `HARD_INDICATORS`. -/
def HARD_INDICATORS : List Str :=
  [sl "platform", sl "enterprise", sl "scale", sl "infrastructure",
   sl "distributed", sl "complex"]

/-- `text = f"{bookmark.name} {bookmark.url}".lower()`. -/
def buildText (bm : Bookmark) : Str := lowerStr (bm.name ++ ' ' :: bm.url)

/-- `easy_count`: distinct easy indicators occurring in the text. -/
def easyCount (bm : Bookmark) : Nat :=
  (EASY_INDICATORS.filter (fun ind => containsSub ind (buildText bm))).length

/-- `hard_count`: distinct hard indicators occurring in the text. -/
def hardCount (bm : Bookmark) : Nat :=
  (HARD_INDICATORS.filter (fun ind => containsSub ind (buildText bm))).length

/-- `f"Contains {easy_count} easy-build indicators"`. -/
def easyNote (n : Nat) : Str :=
  sl "Contains " ++ sl (Nat.repr n) ++ sl " easy-build indicators"

/-- `f"Contains {hard_count} complex indicators"`. -/
def hardNote (n : Nat) : Str :=
  sl "Contains " ++ sl (Nat.repr n) ++ sl " complex indicators"

/-- Note added for weekend-friendly categories. -/
def weekendNote : Str := sl "Category is weekend-friendly"

/-- Note added for slow categories. -/
def slowNote : Str := sl "Category typically requires more time"

/-- Note added when the URL mentions GitHub. -/
def githubNote : Str := sl "GitHub project (likely has code reference)"

/-- `['tools', 'cli', 'web']`. -/
def weekendCats : List Str := [sl "tools", sl "cli", sl "web"]

/-- `['hardware', 'infrastructure', 'platform']`. -/
def slowCats : List Str := [sl "hardware", sl "infrastructure", sl "platform"]

/-- The accumulated score just before the GitHub check: base `0.5`, plus
`0.1 * easy_count` when positive, minus `0.15 * hard_count` when positive,
plus the category adjustment. -/
def preGithubScore (bm : Bookmark) (category : Str) : ℚ :=
  let s0 : ℚ := 0.5
  let s1 := if 0 < easyCount bm then s0 + 0.1 * (easyCount bm : ℚ) else s0
  let s2 := if 0 < hardCount bm then s1 - 0.15 * (hardCount bm : ℚ) else s1
  if weekendCats.contains category then s2 + 0.15
  else if slowCats.contains category then s2 - 0.2
  else s2

/-- The full pre-clamp score: the GitHub bonus tests the RAW url string. -/
def rawScore (bm : Bookmark) (category : Str) : ℚ :=
  preGithubScore bm category +
    (if containsSub (sl "github.com") bm.url then (0.1 : ℚ) else 0)

/-- The `reasons` list, in the order the code appends to it. -/
def reasonsList (bm : Bookmark) (category : Str) : List Str :=
  (if 0 < easyCount bm then [easyNote (easyCount bm)] else []) ++
  (if 0 < hardCount bm then [hardNote (hardCount bm)] else []) ++
  (if weekendCats.contains category then [weekendNote]
   else if slowCats.contains category then [slowNote] else []) ++
  (if containsSub (sl "github.com") bm.url then [githubNote] else [])

/-- Python `min` of two numbers (first argument wins ties). -/
def qMin (a b : ℚ) : ℚ := if b < a then b else a

/-- Python `max` of two numbers (first argument wins ties). -/
def qMax (a b : ℚ) : ℚ := if a < b then b else a

/-- `score = max(0.0, min(1.0, score))`. -/
def clamp01 (q : ℚ) : ℚ := qMax 0 (qMin 1 q)

/-- `"; ".join(reasons) if reasons else "Standard project complexity"`. -/
def joinReasons (reasons : List Str) : Str :=
  if reasons = [] then sl "Standard project complexity"
  else List.intercalate (sl "; ") reasons

/-- Model of `ProjectAnalyzer.calculate_buildability`. -/
def calculate_buildability (bm : Bookmark) (category : Str) : ℚ × Str :=
  (clamp01 (rawScore bm category), joinReasons (reasonsList bm category))

/-! ### Concept extractor (`ProjectAnalyzer.extract_concepts`)

`re.findall(r'\b[A-Z][a-z]+\b|\b[a-z]{4,}\b', ...)` scans left to right; at
a word boundary it first tries a capitalised word, then a lowercase word of
length at least four.  Both alternatives end with `\b`, and because every
shorter candidate run is followed by a word character, greedy matching with
backtracking reduces to: take the maximal lowercase run and require the
following character (if any) to be a non-word character.

`list(set(...))` enumerates a Python set in an order determined by the
interpreter (string hashes); the enumeration is modelled by an explicit
parameter `enum` that is fixed for a given interpreter run and maps a list
of strings to an enumeration of its distinct members. -/

/-- The character after the candidate run must close a word boundary. -/
def nextNonWord : Str → Bool
  | [] => true
  | c :: _ => !isWordChar c

/-- Try the alternation `\b[A-Z][a-z]+\b|\b[a-z]{4,}\b` at the current
position; `prevIsWord` tells whether the previous character was a word
character (so that `\b` can be decided). -/
def tryMatch (prevIsWord : Bool) : Str → Option Str
  | [] => none
  | c :: cs =>
      if prevIsWord then none
      else if c.isUpper then
        let run := cs.takeWhile Char.isLower
        if run ≠ [] ∧ nextNonWord (cs.drop run.length) then some (c :: run)
        else none
      else if c.isLower then
        let run := cs.takeWhile Char.isLower
        if 4 ≤ run.length + 1 ∧ nextNonWord (cs.drop run.length) then
          some (c :: run)
        else none
      else none

/-- Model of `re.findall` for the concept pattern: successive leftmost
matches; after a match, scanning resumes right after it (every match ends in
a lowercase letter, hence in a word character). -/
def findWords (prevIsWord : Bool) (l : Str) : List Str :=
  match l with
  | [] => []
  | c :: cs =>
      match tryMatch prevIsWord (c :: cs) with
      | some w => w :: findWords true (cs.drop (w.length - 1))
      | none => findWords (isWordChar c) cs
termination_by l.length
decreasing_by
  · simp only [List.length_drop, List.length_cons]
    omega
  · simp only [List.length_cons]
    omega

/-- `domain.replace('www.', '')`: remove every occurrence of `www.`,
scanning left to right without overlap. -/
def removeWWW : Str → Str
  | [] => []
  | c :: cs =>
      if startsWithCL (sl "www.") (c :: cs) then removeWWW (cs.drop 3)
      else c :: removeWWW cs
termination_by s => s.length
decreasing_by
  · simp only [List.length_drop, List.length_cons]
    omega
  · simp only [List.length_cons]
    omega

/-- `.split('.')[0]` of the cleaned domain (`split` never returns an empty
list, so the first label always exists; it is empty for an empty domain). -/
def domainFirstLabel (domain : Str) : Str :=
  (removeWWW domain).takeWhile (fun c => !(c == '.'))

/-- Model of `ProjectAnalyzer.extract_concepts`.  `enum` models
`list(set(·))`: the enumeration of the distinct members of its argument
used by the ambient interpreter run. -/
def extract_concepts (enum : List Str → List Str) (bm : Bookmark) :
    List Str :=
  let words := findWords false bm.clean_name
  let candidates := words.take 5 ++ [domainFirstLabel bm.domain]
  (enum ((candidates.filter (fun c => 3 < c.length)).map lowerStr)).take 8

/-! ### Idea ranker (`ProjectAnalyzer.analyze`) -/

/-- The `ProjectIdea` dataclass. -/
structure ProjectIdea where
  title : Str
  url : Str
  category : Str
  concepts : List Str
  buildable_score : ℚ
  weekend_feasible : Bool
  reasoning : Str
  source_bookmark : Str
deriving DecidableEq

/-- The loop body of `ProjectAnalyzer.analyze`: one idea per bookmark. -/
def analyzeIdea (enum : List Str → List Str) (bm : Bookmark) : ProjectIdea :=
  let category := categorize bm
  let concepts := extract_concepts enum bm
  let scored := calculate_buildability bm category
  { title := bm.clean_name
    url := bm.url
    category := category
    concepts := concepts
    buildable_score := scored.1
    weekend_feasible := decide ((0.6 : ℚ) ≤ scored.1)
    reasoning := scored.2
    source_bookmark := bm.name }

/-- Stable insertion for the descending sort by `buildable_score`
(`ideas.sort(key=..., reverse=True)` is a stable descending sort; any stable
sort yields the same output). -/
def insertDesc (x : ProjectIdea) : List ProjectIdea → List ProjectIdea
  | [] => [x]
  | y :: ys =>
      if y.buildable_score ≤ x.buildable_score then x :: y :: ys
      else y :: insertDesc x ys

/-- Stable descending sort by score. -/
def sortIdeas : List ProjectIdea → List ProjectIdea
  | [] => []
  | x :: xs => insertDesc x (sortIdeas xs)

/-- Model of `ProjectAnalyzer.analyze`. -/
def analyze (enum : List Str → List Str) (bookmarks : List Bookmark)
    (buildable_only : Bool) : List ProjectIdea :=
  sortIdeas (bookmarks.filterMap (fun bm =>
    let idea := analyzeIdea enum bm
    if buildable_only && !idea.weekend_feasible then none else some idea))

/-- The record fields the extraction theorem compares. -/
def recFields (b : Bookmark) : Str × Str × Option Str :=
  (b.name, b.url, b.date_added)

/-- Spec-side: the fields the record of one leaf must carry (the code-side
defaults for missing fields, see claim C8). -/
def leafFields (t : LeafInfo) : Str × Str × Option Str :=
  (t.1.getD (sl "Untitled"), t.2.1.getD [], t.2.2)

/-- A concrete bookmarks file: an allow-listed root with a folder holding a
named leaf, an unrecognized node (with a nested leaf that must NOT be
emitted) and a nameless leaf, plus a non-allow-listed root that is skipped
without being touched. -/
def witnessTree : TopVal :=
  TopVal.mapping
    [ (sl "roots", RootsVal.mapping
        [ (sl "bookmark_bar",
            BNode.folderNode (some (sl "dev"))
              [ BNode.urlNode (some (sl "A")) (some (sl "https://a.b")) none,
                BNode.otherNode [BNode.urlNode (some (sl "B")) none none],
                BNode.urlNode none (some (sl "https://c.d")) (some (sl "t")) ]),
          (sl "trash", BNode.badNode) ]) ]

/-! ## Claim C1 -/

/-- C1: for every bookmark (any name, url, metadata) and any category, the
buildable score returned by `calculate_buildability` lies in `[0, 1]`, the
final clamp covering every intermediate additive/subtractive excursion. -/
theorem buildable_score_in_unit_interval (bm : Bookmark) (category : Str) :
    0 ≤ (calculate_buildability bm category).1 ∧
      (calculate_buildability bm category).1 ≤ 1 := by
  show 0 ≤ clamp01 (rawScore bm category) ∧ clamp01 (rawScore bm category) ≤ 1
  unfold clamp01 qMax qMin
  split_ifs <;> constructor <;> linarith

/-! ## Claim C2 -/

/-- The bookmark of the worked example in the spec. -/
def exampleBookmark : Bookmark :=
  mkBookmark (sl "Awesome CLI Tool - GitHub") (sl "https://github.com/foo/bar")
    none []

/-- C2 counterexample: on the example bookmark the score is NOT `0.70`; the
claimed sum omits the `+0.15` weekend-friendly category adjustment that the
code applies because the category is `tools`. -/
theorem example_score_not_070 :
    (calculate_buildability exampleBookmark (categorize exampleBookmark)).1 ≠
      (0.70 : ℚ) := by
  have hcat : categorize exampleBookmark = sl "tools" := by decide
  have heasy : easyCount exampleBookmark = 1 := by decide
  have hhard : hardCount exampleBookmark = 0 := by decide
  have hgh : containsSub (sl "github.com") exampleBookmark.url = true := by
    decide
  have hw : weekendCats.contains (sl "tools") = true := by decide
  show clamp01 (rawScore exampleBookmark (categorize exampleBookmark)) ≠ _
  rw [hcat]
  simp only [clamp01, qMax, qMin, rawScore, preGithubScore, heasy, hhard, hgh,
    hw, if_true]
  norm_num

/-- C2 as amended: the example pipeline yields clean name
`"Awesome CLI Tool"`, category `tools`, buildable score
`0.85 = 0.5 + 0.10 (cli) + 0.15 (weekend-friendly category) + 0.10 (github)`
and weekend feasibility `true`. -/
theorem example_pipeline_values :
    exampleBookmark.clean_name = sl "Awesome CLI Tool" ∧
      categorize exampleBookmark = sl "tools" ∧
      (calculate_buildability exampleBookmark (categorize exampleBookmark)).1 =
        (0.85 : ℚ) ∧
      (0.6 : ℚ) ≤
        (calculate_buildability exampleBookmark
          (categorize exampleBookmark)).1 := by
  have hcat : categorize exampleBookmark = sl "tools" := by decide
  have heasy : easyCount exampleBookmark = 1 := by decide
  have hhard : hardCount exampleBookmark = 0 := by decide
  have hgh : containsSub (sl "github.com") exampleBookmark.url = true := by
    decide
  have hw : weekendCats.contains (sl "tools") = true := by decide
  have hscore :
      (calculate_buildability exampleBookmark (categorize exampleBookmark)).1 =
        (0.85 : ℚ) := by
    show clamp01 (rawScore exampleBookmark (categorize exampleBookmark)) = _
    rw [hcat]
    simp only [clamp01, qMax, qMin, rawScore, preGithubScore, heasy, hhard,
      hgh, hw, if_true]
    norm_num
  refine ⟨by decide, hcat, hscore, ?_⟩
  rw [hscore]
  norm_num

/-! ## Claim C3 -/

/-- C3 counterexample: for the URL `https://example.com/github.com` the host
is `example.com`, which does not contain `github.com`, yet the code grants
the `0.10` bonus (score `0.6` instead of the factor-free `0.5`), because it
tests the whole URL string, not the host. -/
theorem github_bonus_counterexample :
    containsSub (sl "github.com")
        (netloc (sl "https://example.com/github.com")) = false ∧
      (calculate_buildability
        (mkBookmark (sl "x") (sl "https://example.com/github.com") none [])
        (sl "other")).1 = (0.6 : ℚ) ∧
      githubNote ∈ reasonsList
        (mkBookmark (sl "x") (sl "https://example.com/github.com") none [])
        (sl "other") := by
  set bm : Bookmark :=
    mkBookmark (sl "x") (sl "https://example.com/github.com") none [] with hbm
  have heasy : easyCount bm = 0 := by rw [hbm]; decide
  have hhard : hardCount bm = 0 := by rw [hbm]; decide
  have hgh : containsSub (sl "github.com") bm.url = true := by rw [hbm]; decide
  have hw : weekendCats.contains (sl "other") = false := by decide
  have hs : slowCats.contains (sl "other") = false := by decide
  refine ⟨by decide, ?_, ?_⟩
  · show clamp01 (rawScore bm (sl "other")) = _
    simp only [clamp01, qMax, qMin, rawScore, preGithubScore, heasy, hhard,
      hgh, hw, hs, if_true, Bool.false_eq_true, if_false]
    norm_num
  · simp only [reasonsList, heasy, hhard, hgh, hw, hs, if_true,
      Bool.false_eq_true, if_false, lt_irrefl, List.append_nil,
      List.nil_append]
    simp

/-! ## Claim C4 -/

/-- `maxVal` of a cons. -/
theorem maxVal_cons (x : Str × Nat) (xs : List (Str × Nat)) :
    maxVal (x :: xs) = if x.2 ≤ maxVal xs then maxVal xs else x.2 := rfl

/-- `firstWithKey` of a cons. -/
theorem firstWithKey_cons (e : Str × Nat) (es : List (Str × Nat)) (m : Nat) :
    firstWithKey (e :: es) m = if e.2 = m then some e else firstWithKey es m :=
  rfl

/-- One fold step of the Python `max`. -/
theorem pickMax_cons (x y : Str × Nat) (ys : List (Str × Nat)) :
    pickMax x (y :: ys) = pickMax (pickStep x y) ys := rfl

/-- Python `max` with its first-wins tie-breaking returns the first list
element attaining the maximal key. -/
theorem pickMax_eq_first (xs : List (Str × Nat)) : ∀ x : Str × Nat,
    firstWithKey (x :: xs) (maxVal (x :: xs)) = some (pickMax x xs) := by
  induction xs with
  | nil =>
      intro x
      rw [firstWithKey_cons, if_pos]
      · rfl
      · have h0 : maxVal ([] : List (Str × Nat)) = 0 := rfl
        rw [maxVal_cons]
        split <;> omega
  | cons y ys ih =>
      intro x
      rcases Nat.lt_or_ge x.2 y.2 with hxy | hyx
      · -- the second element strictly beats the first
        have hps : pickStep x y = y := by
          unfold pickStep
          rw [if_pos hxy]
        have hMeq : maxVal (x :: y :: ys) = maxVal (y :: ys) := by
          simp only [maxVal_cons]
          split_ifs <;> omega
        have hxne : x.2 ≠ maxVal (x :: y :: ys) := by
          simp only [maxVal_cons]
          split_ifs <;> omega
        rw [pickMax_cons, hps, hMeq, firstWithKey_cons,
          if_neg (hMeq ▸ hxne)]
        exact ih y
      · -- the first element survives the step
        have hps : pickStep x y = x := by
          unfold pickStep
          rw [if_neg (Nat.not_lt.mpr hyx)]
        have hMeq : maxVal (x :: y :: ys) = maxVal (x :: ys) := by
          simp only [maxVal_cons]
          split_ifs <;> omega
        rw [pickMax_cons, hps]
        by_cases hx : x.2 = maxVal (x :: y :: ys)
        · have := ih x
          rw [← hMeq] at this
          rw [firstWithKey_cons, if_pos hx] at this ⊢
          exact this
        · have hyne : y.2 ≠ maxVal (x :: y :: ys) := by
            simp only [maxVal_cons] at hx ⊢
            split_ifs at hx ⊢ <;> omega
          have := ih x
          rw [← hMeq] at this
          rw [firstWithKey_cons, if_neg hx] at this
          rw [firstWithKey_cons, if_neg hx, firstWithKey_cons, if_neg hyne]
          exact this

/-- The positive filter is empty exactly when every count is zero. -/
theorem filter_pos_nil_iff (l : List (Str × Nat)) :
    l.filter (fun e => decide (0 < e.2)) = [] ↔ maxVal l = 0 := by
  induction l with
  | nil => simp [maxVal]
  | cons x xs ih =>
      rw [List.filter_cons, maxVal_cons]
      by_cases h : 0 < x.2
      · rw [if_pos (by simpa using h)]
        constructor
        · intro hc
          exact absurd hc (List.cons_ne_nil _ _)
        · intro hc
          exfalso
          split at hc <;> omega
      · rw [if_neg (by simpa using h)]
        have hx0 : x.2 = 0 := by omega
        rw [ih, hx0, if_pos (Nat.zero_le _)]

/-- Dropping zero-count entries does not change the maximal count. -/
theorem maxVal_filter_pos (l : List (Str × Nat)) :
    maxVal (l.filter (fun e => decide (0 < e.2))) = maxVal l := by
  induction l with
  | nil => rfl
  | cons x xs ih =>
      rw [List.filter_cons, maxVal_cons]
      by_cases h : 0 < x.2
      · rw [if_pos (by simpa using h), maxVal_cons, ih]
      · rw [if_neg (by simpa using h), ih]
        have hx0 : x.2 = 0 := by omega
        rw [hx0, if_pos (Nat.zero_le _)]

/-- Searching for an entry with a positive count may ignore the zero-count
entries. -/
theorem first_pos_filter (l : List (Str × Nat)) (m : Nat) (hm : 0 < m) :
    firstWithKey (l.filter (fun e => decide (0 < e.2))) m =
      firstWithKey l m := by
  induction l with
  | nil => rfl
  | cons x xs ih =>
      rw [List.filter_cons]
      by_cases h : 0 < x.2
      · rw [if_pos (by simpa using h), firstWithKey_cons, firstWithKey_cons]
        split <;> [rfl; exact ih]
      · rw [if_neg (by simpa using h)]
        have hx : x.2 ≠ m := by omega
        rw [ih, firstWithKey_cons, if_neg hx]

/-- C4: the categorizer returns the category with the strictly highest
positive keyword-match count over the lowercased name-url-domain text, the
earliest entry of the fixed table winning ties, and the sentinel `other`
when no count is positive — that is, it coincides with the spec-side
`specCategorize`. -/
theorem categorize_matches_spec (bm : Bookmark) :
    categorize bm = specCategorize bm := by
  unfold categorize specCategorize
  cases hf : (scoredCats bm).filter (fun e => decide (0 < e.2)) with
  | nil =>
      have h0 : maxVal (scoredCats bm) = 0 := (filter_pos_nil_iff _).mp hf
      simp [h0]
  | cons x xs =>
      have hm0 : maxVal (scoredCats bm) ≠ 0 := by
        intro h0
        rw [← filter_pos_nil_iff] at h0
        rw [hf] at h0
        exact List.cons_ne_nil x xs h0
      have h2 : maxVal (x :: xs) = maxVal (scoredCats bm) := by
        rw [← hf, maxVal_filter_pos]
      have h3 : firstWithKey (scoredCats bm) (maxVal (scoredCats bm)) =
          some (pickMax x xs) := by
        rw [← first_pos_filter (scoredCats bm) _ (Nat.pos_of_ne_zero hm0), hf,
          ← h2]
        exact pickMax_eq_first xs x
      simp [hm0, h3]

/-- The GitHub note differs from every easy-indicator note (their first
characters differ, whatever the count). -/
theorem githubNote_ne_easyNote (n : Nat) : githubNote ≠ easyNote n := by
  intro h
  have h1 : githubNote.head? = some ('G') := rfl
  have h2 : (easyNote n).head? = some ('C') := rfl
  rw [h] at h1
  have h3 := h2.symm.trans h1
  simp at h3

/-- The GitHub note differs from every hard-indicator note. -/
theorem githubNote_ne_hardNote (n : Nat) : githubNote ≠ hardNote n := by
  intro h
  have h1 : githubNote.head? = some ('G') := rfl
  have h2 : (hardNote n).head? = some ('C') := rfl
  rw [h] at h1
  have h3 := h2.symm.trans h1
  simp at h3

/-- C3 as amended: the flat `0.10` GitHub bonus (and its reasoning note) is
granted if and only if `github.com` occurs as a substring anywhere in the
raw URL string — the code never inspects the host component, so a match in
the path or query suffices and the host is irrelevant. -/
theorem github_bonus_iff_url_substring (bm : Bookmark) (category : Str) :
    rawScore bm category = preGithubScore bm category +
        (if containsSub (sl "github.com") bm.url then (0.1 : ℚ) else 0) ∧
      (githubNote ∈ reasonsList bm category ↔
        containsSub (sl "github.com") bm.url = true) := by
  refine ⟨rfl, ?_⟩
  have hA : githubNote ∉
      (if 0 < easyCount bm then [easyNote (easyCount bm)] else []) := by
    split
    · simp only [List.mem_singleton]
      exact githubNote_ne_easyNote _
    · simp
  have hB : githubNote ∉
      (if 0 < hardCount bm then [hardNote (hardCount bm)] else []) := by
    split
    · simp only [List.mem_singleton]
      exact githubNote_ne_hardNote _
    · simp
  have hC : githubNote ∉
      (if weekendCats.contains category then [weekendNote]
       else if slowCats.contains category then [slowNote] else []) := by
    split
    · simp only [List.mem_singleton]
      intro h
      have h1 : githubNote.head? = some ('G') := rfl
      have h2 : weekendNote.head? = some ('C') := rfl
      rw [h] at h1
      have h3 := h2.symm.trans h1
      simp at h3
    · split
      · simp only [List.mem_singleton]
        intro h
        have h1 : githubNote.head? = some ('G') := rfl
        have h2 : slowNote.head? = some ('C') := rfl
        rw [h] at h1
        have h3 := h2.symm.trans h1
        simp at h3
      · simp
  unfold reasonsList
  constructor
  · intro hmem
    simp only [List.mem_append] at hmem
    rcases hmem with ((h | h) | h) | h
    · exact absurd h hA
    · exact absurd h hB
    · exact absurd h hC
    · by_cases hg : containsSub (sl "github.com") bm.url = true
      · exact hg
      · rw [if_neg hg] at h
        simp at h
  · intro hg
    simp only [List.mem_append]
    right
    rw [if_pos hg]
    simp

/-! ## Claim C5 -/

/-- A separator character is not whitespace. -/
theorem sep_not_space (c : Char) (h : isSepChar c = true) :
    isPySpace c = false := by
  unfold isSepChar at h
  simp at h
  rcases h with h | h <;> subst h <;> decide

/-- A separator character is neither a word character nor whitespace. -/
theorem sep_not_wordOrSpace (c : Char) (h : isSepChar c = true) :
    wordOrSpace c = false := by
  unfold isSepChar at h
  simp at h
  rcases h with h | h <;> subst h <;> decide

/-- A string of word-or-space characters contains no separator. -/
theorem allWS_no_sep : ∀ q : Str, q.all wordOrSpace = true →
    findLastSep q = none := by
  intro q
  induction q with
  | nil => intro _; rfl
  | cons c cs ih =>
      intro h
      rw [List.all_cons, Bool.and_eq_true] at h
      have hsep : isSepChar c = false := by
        by_cases hs : isSepChar c = true
        · rw [sep_not_wordOrSpace c hs] at h
          exact absurd h.1 (by simp)
        · simpa using hs
      simp [findLastSep, ih h.2, hsep]

/-- `findLastSep` really splits the string at a separator. -/
theorem findLastSep_decomp : ∀ (s p : Str) (d : Char) (q : Str),
    findLastSep s = some (p, d, q) → s = p ++ d :: q ∧ isSepChar d = true := by
  intro s
  induction s with
  | nil =>
      intro p d q h
      exact absurd h (by simp [findLastSep])
  | cons c cs ih =>
      intro p d q h
      cases hls : findLastSep cs with
      | some t =>
          obtain ⟨p', d', q'⟩ := t
          rw [show findLastSep (c :: cs) = some (c :: p', d', q') from by
            simp [findLastSep, hls]] at h
          obtain ⟨hp, hd, hq⟩ :
              c :: p' = p ∧ d' = d ∧ q' = q := by
            injection h with h'
            injection h' with h1 h2
            injection h2 with h3 h4
            exact ⟨h1, h3, h4⟩
          obtain ⟨hcs, hsep⟩ := ih p' d' q' hls
          subst hp hd hq
          subst hcs
          exact ⟨rfl, hsep⟩
      | none =>
          by_cases hc : isSepChar c = true
          · rw [show findLastSep (c :: cs) = some ([], c, cs) from by
              simp [findLastSep, hls, hc]] at h
            obtain ⟨hp, hd, hq⟩ :
                ([] : Str) = p ∧ c = d ∧ cs = q := by
              injection h with h'
              injection h' with h1 h2
              injection h2 with h3 h4
              exact ⟨h1, h3, h4⟩
            subst hp hd hq
            exact ⟨rfl, hc⟩
          · rw [show findLastSep (c :: cs) = none from by
              simp [findLastSep, hls, hc]] at h
            exact absurd h (by simp)

/-- Only all-whitespace strings lose everything to the trailing-space drop. -/
theorem dropTrailingWs_nil_all_space : ∀ p : Str, dropTrailingWs p = [] →
    p.all isPySpace = true := by
  intro p
  induction p with
  | nil => intro _; rfl
  | cons c cs ih =>
      intro h
      simp only [dropTrailingWs] at h
      split at h
      · next hcond =>
          rw [List.all_cons, Bool.and_eq_true]
          exact ⟨hcond.2, ih hcond.1⟩
      · exact absurd h (List.cons_ne_nil _ _)

/-- A whitespace run, a separator and a nonempty word-or-space tail make the
`_clean_name` pattern match the whole string. -/
theorem tailMatch_shape : ∀ (p : Str) (d : Char) (q : Str),
    p.all isPySpace = true → isSepChar d = true → q ≠ [] →
    q.all wordOrSpace = true → tailMatch (p ++ d :: q) = true := by
  intro p d q hp hd hq hqall
  induction p with
  | nil =>
      simp only [List.nil_append, tailMatch]
      rw [sep_not_space d hd]
      simp [hd, hq, hqall]
  | cons c cs ih =>
      rw [List.all_cons, Bool.and_eq_true] at hp
      simp only [List.cons_append, tailMatch, hp.1, if_true]
      exact ih hp.2

/-- When the whole string matches the pattern, the spec-side strip at the
last separator removes everything. -/
theorem tailMatch_specStripLast : ∀ s : Str, tailMatch s = true →
    specStripLast s = some [] := by
  intro s
  induction s with
  | nil => intro h; exact absurd h (by simp [tailMatch])
  | cons c cs ih =>
      intro h
      simp only [tailMatch] at h
      by_cases hsp : isPySpace c = true
      · rw [if_pos hsp] at h
        have hcs := ih h
        cases hls : findLastSep cs with
        | none =>
            simp only [specStripLast, hls] at hcs
            exact absurd hcs (by simp)
        | some t =>
            obtain ⟨p, d, q⟩ := t
            simp only [specStripLast, hls] at hcs
            split at hcs
            · next hcond =>
                have hdp : dropTrailingWs p = [] := by
                  injection hcs
                have hfl : findLastSep (c :: cs) = some (c :: p, d, q) := by
                  simp [findLastSep, hls]
                simp only [specStripLast, hfl]
                rw [if_pos hcond]
                have hnil : dropTrailingWs (c :: p) = [] := by
                  simp only [dropTrailingWs]
                  rw [if_pos ⟨hdp, hsp⟩]
                rw [hnil]
            · exact absurd hcs (by simp)
      · rw [if_neg hsp] at h
        by_cases hsep : isSepChar c = true
        · rw [if_pos hsep, Bool.and_eq_true, decide_eq_true_eq] at h
          have hfl : findLastSep (c :: cs) = some ([], c, cs) := by
            simp [findLastSep, allWS_no_sep cs h.2, hsep]
          simp only [specStripLast, hfl]
          rw [if_pos h]
          rfl
        · rw [if_neg hsep] at h
          exact absurd h (by simp)

/-- The `re.sub` of `_clean_name` (leftmost suffix match) coincides with the
spec-side description: strip at the last separator when its tail qualifies,
else strip nothing. -/
theorem stripRegex_eq_spec : ∀ s : Str,
    stripRegex s = (specStripLast s).getD s := by
  intro s
  induction s with
  | nil => rfl
  | cons c cs ih =>
      by_cases ht : tailMatch (c :: cs) = true
      · rw [show stripRegex (c :: cs) = [] from by simp [stripRegex, ht],
          tailMatch_specStripLast _ ht]
        rfl
      · have hsr : stripRegex (c :: cs) = c :: stripRegex cs := by
          simp [stripRegex, ht]
        rw [hsr, ih]
        cases hls : findLastSep cs with
        | some t =>
            obtain ⟨p, d, q⟩ := t
            have hdecomp := findLastSep_decomp cs p d q hls
            have hfl : findLastSep (c :: cs) = some (c :: p, d, q) := by
              simp [findLastSep, hls]
            by_cases hqual : q ≠ [] ∧ q.all wordOrSpace = true
            · have h1 : specStripLast cs = some (dropTrailingWs p) := by
                simp only [specStripLast, hls]
                rw [if_pos hqual]
              have h2 : specStripLast (c :: cs) =
                  some (dropTrailingWs (c :: p)) := by
                simp only [specStripLast, hfl]
                rw [if_pos hqual]
              rw [h1, h2]
              show c :: dropTrailingWs p = dropTrailingWs (c :: p)
              have hcond : ¬(dropTrailingWs p = [] ∧ isPySpace c = true) := by
                rintro ⟨hdp, hsp⟩
                apply ht
                have hpall := dropTrailingWs_nil_all_space p hdp
                rw [hdecomp.1]
                show tailMatch ((c :: p) ++ d :: q) = true
                exact tailMatch_shape (c :: p) d q
                  (by simp [List.all_cons, hsp, hpall]) hdecomp.2
                  hqual.1 hqual.2
              simp only [dropTrailingWs]
              rw [if_neg hcond]
            · have h1 : specStripLast cs = none := by
                simp only [specStripLast, hls]
                rw [if_neg hqual]
              have h2 : specStripLast (c :: cs) = none := by
                simp only [specStripLast, hfl]
                rw [if_neg hqual]
              rw [h1, h2]
              rfl
        | none =>
            have h1 : specStripLast cs = none := by
              simp only [specStripLast, hls]
            by_cases hsep : isSepChar c = true
            · have hfl : findLastSep (c :: cs) = some ([], c, cs) := by
                simp [findLastSep, hls, hsep]
              by_cases hqual : cs ≠ [] ∧ cs.all wordOrSpace = true
              · exfalso
                apply ht
                have hsp := sep_not_space c hsep
                simp [tailMatch, hsp, hsep, hqual.1, hqual.2]
              · have h2 : specStripLast (c :: cs) = none := by
                  simp only [specStripLast, hfl]
                  rw [if_neg hqual]
                rw [h1, h2]
                rfl
            · have hfl : findLastSep (c :: cs) = none := by
                simp [findLastSep, hls, hsep]
              have h2 : specStripLast (c :: cs) = none := by
                simp only [specStripLast, hfl]
              rw [h1, h2]
              rfl

/-- C5 counterexample: for the name `" - x"` the suffix strip empties the
string, and the fallback returns the ORIGINAL name `" - x"` — not the
trimmed original `"- x"` as the claim states (`cleaned.strip() or self.name`
falls back to the unstripped field). -/
theorem clean_name_fallback_counterexample :
    pyStrip (stripRegex (sl " - x")) = [] ∧
      cleanName (sl " - x") = sl " - x" ∧
      cleanName (sl " - x") ≠ pyStrip (sl " - x") := by decide

/-- C5 as amended: `clean_name` strips exactly one trailing
separator-delimited suffix — the one starting at the last `-` or `|` (with
its preceding whitespace run) whose tail is one or more word-or-whitespace
characters reaching the end — trims the remainder, and whenever that result
is empty or whitespace-only it returns the original name unchanged (not
trimmed). -/
theorem clean_name_matches_spec (name : Str) :
    cleanName name = specClean name := by
  unfold cleanName specClean
  rw [stripRegex_eq_spec]

/-! ## Claim C6 -/

mutual

/-- On a valid node, `traverse` succeeds and emits exactly one record per
url-kind leaf, in pre-order; folders and unrecognized nodes emit none. -/
theorem traverse_ok (n : BNode) (path : Str) (h : validNode n = true) :
    ∃ bs, traverse n path = Except.ok bs ∧ bs.length = leafCount n ∧
      bs.map recFields = (leafSeq n).map leafFields := by
  cases n with
  | urlNode nm u d =>
      exact ⟨[mkBookmark (nm.getD (sl "Untitled")) (u.getD []) d path], rfl,
        rfl, rfl⟩
  | folderNode nm cs =>
      have hcs : validList cs = true := h
      exact traverseList_ok cs
        (if path = [] then nm.getD (sl "Unnamed")
         else path ++ '/' :: nm.getD (sl "Unnamed")) hcs
  | otherNode cs => exact ⟨[], rfl, rfl, rfl⟩
  | badNode => simp [validNode] at h

/-- List version of `traverse_ok`, concatenating the children in order. -/
theorem traverseList_ok (l : List BNode) (path : Str)
    (h : validList l = true) :
    ∃ bs, traverseList l path = Except.ok bs ∧ bs.length = leafCountList l ∧
      bs.map recFields = (leafSeqList l).map leafFields := by
  cases l with
  | nil => exact ⟨[], rfl, rfl, rfl⟩
  | cons c cs =>
      rw [show validList (c :: cs) = (validNode c && validList cs) from rfl,
        Bool.and_eq_true] at h
      obtain ⟨bs1, e1, l1, m1⟩ := traverse_ok c path h.1
      obtain ⟨bs2, e2, l2, m2⟩ := traverseList_ok cs path h.2
      refine ⟨bs1 ++ bs2, ?_, ?_, ?_⟩
      · rw [show traverseList (c :: cs) path =
            (match traverse c path with
             | .error e => .error e
             | .ok bs =>
                 match traverseList cs path with
                 | .error e => .error e
                 | .ok bs2 => .ok (bs ++ bs2)) from rfl, e1, e2]
      · rw [List.length_append, l1, l2]
        rfl
      · rw [List.map_append, m1, m2,
          show leafSeqList (c :: cs) = leafSeq c ++ leafSeqList cs from rfl,
          List.map_append]

end

/-- The loop over allow-listed roots succeeds on valid roots and emits the
pre-order leaves of each allow-listed root, in dict order. -/
theorem parseRoots_ok (roots : List (Str × BNode))
    (h : rootsValid roots = true) :
    ∃ bms, parseRoots roots = Except.ok bms ∧
      bms.length = rootsLeafCount roots ∧
      bms.map recFields = (rootsLeafSeq roots).map leafFields := by
  induction roots with
  | nil => exact ⟨[], rfl, rfl, rfl⟩
  | cons e rest ih =>
      obtain ⟨rn, nd⟩ := e
      rw [show rootsValid ((rn, nd) :: rest) =
          ((if allowedRoots.contains rn then validNode nd else true) &&
            rootsValid rest) from rfl, Bool.and_eq_true] at h
      by_cases hall : allowedRoots.contains rn = true
      · rw [if_pos hall] at h
        obtain ⟨bs1, e1, l1, m1⟩ := traverse_ok nd rn h.1
        obtain ⟨bs2, e2, l2, m2⟩ := ih h.2
        refine ⟨bs1 ++ bs2, ?_, ?_, ?_⟩
        · simp only [parseRoots]
          rw [if_pos hall, e1, e2]
        · simp only [rootsLeafCount]
          rw [if_pos hall, List.length_append, l1, l2]
        · simp only [rootsLeafSeq]
          rw [if_pos hall, List.map_append, List.map_append, m1, m2]
      · rw [if_neg hall] at h
        obtain ⟨bs2, e2, l2, m2⟩ := ih h.2
        refine ⟨bs2, ?_, ?_, ?_⟩
        · simp only [parseRoots]
          rw [if_neg hall, e2]
        · simp only [rootsLeafCount]
          rw [if_neg hall, l2]
          omega
        · simp only [rootsLeafSeq]
          rw [if_neg hall, m2]
          rfl

/-- C6: on every valid folder tree, `parse_chrome` returns (without error)
exactly one Bookmark Record per url-kind leaf reachable from an allow-listed
root, in pre-order; folders contribute no records, and nodes under
non-allow-listed roots or with an unrecognized node-kind tag are skipped. -/
theorem tree_extractor_one_record_per_leaf (data : TopVal)
    (h : topValid data = true) :
    ∃ bms, parse_chrome data = Except.ok bms ∧
      bms.length = specLeafCountTop data ∧
      bms.map recFields = (specLeafSeqTop data).map leafFields := by
  cases data with
  | nonMapping => simp [topValid] at h
  | mapping entries =>
      cases hr : (lookupKey entries (sl "roots")).getD (RootsVal.mapping [])
        with
      | nonMapping => simp [topValid, hr] at h
      | mapping roots =>
          have hra : rootsValid roots = true := by
            simpa [topValid, hr] using h
          obtain ⟨bms, e, hl, hm⟩ := parseRoots_ok roots hra
          refine ⟨bms, ?_, ?_, ?_⟩
          · simp only [parse_chrome, hr]
            exact e
          · simp only [specLeafCountTop, hr]
            exact hl
          · simp only [specLeafSeqTop, hr]
            exact hm

/-- Witness for C6 at a concrete tree exercising a folder, a skipped
unrecognized node with a nested leaf, a nameless leaf and a skipped
non-allow-listed root. -/
theorem tree_extractor_witness :
    topValid witnessTree = true ∧
      ∃ bms, parse_chrome witnessTree = Except.ok bms ∧
        bms.length = specLeafCountTop witnessTree ∧
        bms.map recFields = (specLeafSeqTop witnessTree).map leafFields :=
  ⟨by decide, tree_extractor_one_record_per_leaf witnessTree (by decide)⟩

/-! ## Claim C7 -/

/-- C7: when the parsed top-level value is not a mapping, `parse_chrome`
surfaces a failure (the `AttributeError` raised by `data.get`) to the
caller instead of returning a bookmark list. -/
theorem parse_failure_on_non_mapping (data : TopVal)
    (h : isMapping data = false) :
    parse_chrome data = Except.error PyErr.attributeError := by
  cases data with
  | mapping entries => simp [isMapping] at h
  | nonMapping => rfl

/-- Witness for C7 at a concrete non-mapping top-level value. -/
theorem parse_failure_on_non_mapping_witness :
    isMapping TopVal.nonMapping = false ∧
      parse_chrome TopVal.nonMapping = Except.error PyErr.attributeError :=
  ⟨rfl, parse_failure_on_non_mapping TopVal.nonMapping rfl⟩

/-! ## Claim C8 -/

/-- C8 counterexample: a leaf whose `name` field is present but empty is
emitted with the empty name, not with the `"Untitled"` placeholder —
`node.get('name', 'Untitled')` substitutes the default only for a missing
field. -/
theorem empty_name_no_placeholder :
    traverse (BNode.urlNode (some []) (some (sl "https://a.b")) none)
        (sl "bookmark_bar") =
      Except.ok [mkBookmark [] (sl "https://a.b") none (sl "bookmark_bar")] ∧
      (mkBookmark [] (sl "https://a.b") none (sl "bookmark_bar")).name ≠
        sl "Untitled" :=
  ⟨rfl, by decide⟩

/-- C8 as amended: the emitted record carries the `"Untitled"` placeholder
exactly when the leaf has no `name` field; a present name — the empty
string included — is kept verbatim. -/
theorem name_placeholder_only_when_missing (u date : Option Str) (path : Str) :
    traverse (BNode.urlNode none u date) path =
        Except.ok [mkBookmark (sl "Untitled") (u.getD []) date path] ∧
      ∀ n : Str, traverse (BNode.urlNode (some n) u date) path =
        Except.ok [mkBookmark n (u.getD []) date path] :=
  ⟨rfl, fun _ => rfl⟩

/-! ## Claim C9 -/

/-- C9: concept extraction is deterministic in the `(name, url)` input: for
a fixed interpreter run (a fixed set-enumeration function `enum`), any two
bookmarks built from the same name and url — whatever their metadata —
yield the same concepts list, elements and order alike. -/
theorem extract_concepts_deterministic (enum : List Str → List Str)
    (name url : Str) (d1 d2 : Option Str) (p1 p2 : Str) :
    extract_concepts enum (mkBookmark name url d1 p1) =
      extract_concepts enum (mkBookmark name url d2 p2) := rfl

/-! ## Claim C10 -/

/-- C10: metadata noninterference — two bookmarks agreeing on name and url
but with arbitrary `date_added` and `folder_path` produce identical project
ideas: same title, category, concepts, score, feasibility and reasoning. -/
theorem metadata_noninterference (enum : List Str → List Str)
    (name url : Str) (d1 d2 : Option Str) (p1 p2 : Str) :
    analyzeIdea enum (mkBookmark name url d1 p1) =
      analyzeIdea enum (mkBookmark name url d2 p2) := rfl

end BookmarkMiner
